import Mathlib

/-!
Verification development for the Cisco "show version" inventory extractor
(`cisco-clerk`).  The JavaScript source extracts device records from
plaintext transcripts with three regular expressions

  hostnameRegex      = /(\S+)\#sh[ow\s]+ver.*/
  serialNumberRegex  = /[Ss]ystem\s+[Ss]erial\s+[Nn]umber\s+:\s([\w]+)/g
  modelSoftwareRegex = /([\w-]+)\s+(\d{2}\.[\w\.)?(?]+)\s+(\w+[-|_][\w-]+\-[\w]+)/g

and pairs the i-th serial with the i-th model/software triple.  Below, the
three regexes are embedded as explicit backtracking matchers over `List Char`
with JavaScript semantics (leftmost match, greedy quantifiers with
backtracking, global `lastIndex` state for the two `/g` regexes, `exec`
returning `null` and resetting `lastIndex` to 0 when no further match is
found).  The `extract`/`build` pipeline (`parseFile`, `buildData` in
`main.js`) is embedded on top of these, with thrown `TypeError`s (indexing a
`null` match result, or indexing past the end of the model/software array)
modelled as `Option.none`.
-/

set_option maxRecDepth 20000

namespace Clerk

/-- The set of characters matched by the JavaScript `\s` escape. -/
def isSpaceChar (c : Char) : Bool :=
  c == ' ' || c == '\t' || c == '\n' || c == '\x0b' || c == '\x0c' || c == '\r' ||
  c == '\u00A0' || c == '\u1680' || ('\u2000' ≤ c && c ≤ '\u200A') ||
  c == '\u2028' || c == '\u2029' || c == '\u202F' || c == '\u205F' ||
  c == '\u3000' || c == '\uFEFF'

/-- The set of characters matched by the JavaScript `\w` escape. -/
def isWordChar (c : Char) : Bool := c.isAlpha || c.isDigit || c == '_'

/-- Character class `[ow\s]` of the hostname regex. -/
def owsClass (c : Char) : Bool := c == 'o' || c == 'w' || isSpaceChar c

/-- Character class `[\w-]` (model token, and third part of the image token). -/
def wordDashClass (c : Char) : Bool := isWordChar c || c == '-'

/-- Character class `[\w\.)?(?]` following `\d{2}\.` in the version group. -/
def versionTailClass (c : Char) : Bool :=
  isWordChar c || c == '.' || c == ')' || c == '?' || c == '('

/-- Character class `[-|_]` separating the first two parts of the image token. -/
def sepClass (c : Char) : Bool := c == '-' || c == '|' || c == '_'

/-- Consume one literal character. -/
def eatLit (c : Char) : List Char → Option (List Char)
  | x :: xs => if x == c then some xs else none
  | [] => none

/-- Consume a literal character sequence. -/
def eatLits : List Char → List Char → Option (List Char)
  | [], cs => some cs
  | c :: cr, cs => (eatLit c cs).bind (eatLits cr)

/-- Consume one character of a class. -/
def eatClass (cls : Char → Bool) : List Char → Option (List Char)
  | x :: xs => if cls x then some xs else none
  | [] => none

/-- Consume one character of a class, returning it. -/
def eatClassC (cls : Char → Bool) : List Char → Option (Char × List Char)
  | x :: xs => if cls x then some (x, xs) else none
  | [] => none

/-- Backtracking worker for a greedy `+` quantifier: `run` is the maximal
class run at the current position and `rest` the text after it.  Attempts
of the continuation `k` are made on the prefixes of `run` of length
`j, j-1, ..., 1` in that order (longest first), exactly the attempt order of
a backtracking regex engine. -/
def backtrackPlusAux (k : List Char → List Char → Option α) (run rest : List Char) :
    Nat → Option α
  | 0 => none
  | j + 1 =>
      match k (run.take (j + 1)) (run.drop (j + 1) ++ rest) with
      | some a => some a
      | none => backtrackPlusAux k run rest j

/-- Greedy `cls+` with backtracking: consume a nonempty prefix of
`cls`-characters (longest first) and continue with `k consumed remainder`. -/
def backtrackPlus (cls : Char → Bool) (cs : List Char)
    (k : List Char → List Char → Option α) : Option α :=
  backtrackPlusAux k (cs.takeWhile cls) (cs.dropWhile cls) (cs.takeWhile cls).length

/-- Attempt of `/(\S+)\#sh[ow\s]+ver.*/` at the current position; returns the
first capture group.  The trailing `.*` always succeeds and captures
nothing, so it imposes no constraint. -/
def matchHostnameAt (cs : List Char) : Option String :=
  backtrackPlus (fun c => !isSpaceChar c) cs fun cap r1 =>
    (eatLit '#' r1).bind fun r2 =>
    (eatLits ['s', 'h'] r2).bind fun r3 =>
    backtrackPlus owsClass r3 fun _ r4 =>
      (eatLits ['v', 'e', 'r'] r4).bind fun _ =>
      some (String.mk cap)

/-- `RegExp.prototype.exec` of the (non-global) hostname regex: try each
start position left to right, return the capture of the leftmost match. -/
def hostnameExec : List Char → Option String
  | [] => none
  | c :: cs =>
      match matchHostnameAt (c :: cs) with
      | some h => some h
      | none => hostnameExec cs

/-- `fetchHostname` of `main.js` (the successful case of
`hostnameRegex.exec(fileContent)[1]`); `none` models the `TypeError` thrown
by indexing a `null` match result. -/
def fetchHostname (content : String) : Option String :=
  hostnameExec content.data

/-- Attempt of `/[Ss]ystem\s+[Ss]erial\s+[Nn]umber\s+:\s([\w]+)/` at the
current position; returns the capture and the remainder after the match. -/
def matchSerialAt (cs : List Char) : Option (String × List Char) :=
  (eatClass (fun c => c == 'S' || c == 's') cs).bind fun r1 =>
  (eatLits ['y', 's', 't', 'e', 'm'] r1).bind fun r2 =>
  backtrackPlus isSpaceChar r2 fun _ r3 =>
  (eatClass (fun c => c == 'S' || c == 's') r3).bind fun r4 =>
  (eatLits ['e', 'r', 'i', 'a', 'l'] r4).bind fun r5 =>
  backtrackPlus isSpaceChar r5 fun _ r6 =>
  (eatClass (fun c => c == 'N' || c == 'n') r6).bind fun r7 =>
  (eatLits ['u', 'm', 'b', 'e', 'r'] r7).bind fun r8 =>
  backtrackPlus isSpaceChar r8 fun _ r9 =>
  (eatLit ':' r9).bind fun r10 =>
  (eatClass isSpaceChar r10).bind fun r11 =>
  backtrackPlus isWordChar r11 fun cap r12 =>
  some (String.mk cap, r12)

/-- Attempt of `/([\w-]+)\s+(\d{2}\.[\w\.)?(?]+)\s+(\w+[-|_][\w-]+\-[\w]+)/`
at the current position; returns the three captures and the remainder. -/
def matchModelAt (cs : List Char) : Option ((String × String × String) × List Char) :=
  backtrackPlus wordDashClass cs fun g1 r1 =>
  backtrackPlus isSpaceChar r1 fun _ r2 =>
  (eatClassC Char.isDigit r2).bind fun d1 =>
  (eatClassC Char.isDigit d1.2).bind fun d2 =>
  (eatLit '.' d2.2).bind fun r5 =>
  backtrackPlus versionTailClass r5 fun vt r6 =>
  backtrackPlus isSpaceChar r6 fun _ r7 =>
  backtrackPlus isWordChar r7 fun i1 r8 =>
  (eatClassC sepClass r8).bind fun sp =>
  backtrackPlus wordDashClass sp.2 fun i2 r9 =>
  (eatLit '-' r9).bind fun r10 =>
  backtrackPlus isWordChar r10 fun i3 r11 =>
  some ((String.mk g1,
         String.mk (d1.1 :: d2.1 :: '.' :: vt),
         String.mk (i1 ++ sp.1 :: (i2 ++ '-' :: i3))), r11)

/-- Scan forward for the leftmost position at which the matcher `m`
succeeds (the position scan a regex engine performs). -/
def scanFrom (m : List Char → Option (α × List Char)) : List Char → Option (α × List Char)
  | [] => m []
  | c :: cs =>
      match m (c :: cs) with
      | some r => some r
      | none => scanFrom m cs

/-- One `exec` call of the global serial-number regex on `text` with the
regex's current `lastIndex`: search from `lastIndex`; on a match return the
capture and set `lastIndex` to the end of the match, on failure return
`none` and reset `lastIndex` to 0. -/
def serialExec (text : List Char) (lastIndex : Nat) : Option String × Nat :=
  match scanFrom matchSerialAt (text.drop lastIndex) with
  | some (cap, rem) => (some cap, text.length - rem.length)
  | none => (none, 0)

/-- One `exec` call of the global model/software regex, as `serialExec`. -/
def modelExec (text : List Char) (lastIndex : Nat) :
    Option (String × String × String) × Nat :=
  match scanFrom matchModelAt (text.drop lastIndex) with
  | some (cap, rem) => (some cap, text.length - rem.length)
  | none => (none, 0)

/-- The `while (m = regex.exec(content))` collection loop, collecting
captures and threading the regex's `lastIndex` state.  Each successful
`exec` strictly advances `lastIndex` (every match consumes at least one
character), so fuel `text.length + 1` never runs out; the loop exits through
the `none` branch, which carries the reset `lastIndex = 0`. -/
def execLoop (exec : Nat → Option α × Nat) : Nat → Nat → List α × Nat
  | 0, li => ([], li)
  | fuel + 1, li =>
      match exec li with
      | (some a, li') =>
          let r := execLoop exec fuel li'
          (a :: r.1, r.2)
      | (none, li') => ([], li')

/-- `fetchSerialNumbers` of `main.js` with the global regex's `lastIndex`
state made explicit (initial state `li`, final state returned). -/
def fetchSerialNumbersS (content : String) (li : Nat) : List String × Nat :=
  execLoop (serialExec content.data) (content.data.length + 1) li

/-- `fetchSerialNumbers` of `main.js` (program start has `lastIndex = 0`). -/
def fetchSerialNumbers (content : String) : List String :=
  (fetchSerialNumbersS content 0).1

/-- `fetchModelAndSoftware` of `main.js` with explicit `lastIndex` state. -/
def fetchModelAndSoftwareS (content : String) (li : Nat) :
    List (String × String × String) × Nat :=
  execLoop (modelExec content.data) (content.data.length + 1) li

/-- `fetchModelAndSoftware` of `main.js`. -/
def fetchModelAndSoftware (content : String) : List (String × String × String) :=
  (fetchModelAndSoftwareS content 0).1

/-- One extracted device row: the five-element `Immutable.List` built in
`parseFile`. -/
structure DeviceRecord where
  hostname : String
  serialNumber : String
  model : String
  softwareVersion : String
  softwareImage : String
deriving DecidableEq, Repr

/-- The `while (i < serialNumbers.length)` pairing loop of `parseFile`:
the i-th serial is paired with `modelAndSoftware[i]`.  When there are fewer
triples than serials, `modelAndSoftware[i]` is `undefined` and
`modelAndSoftware[i][0]` throws a `TypeError`, modelled as `none`. -/
def pairLoop (h : String) : List String → List (String × String × String) →
    Option (List DeviceRecord)
  | [], _ => some []
  | _ :: _, [] => none
  | s :: ss, t :: ts =>
      (pairLoop h ss ts).map fun l => ⟨h, s, t.1, t.2.1, t.2.2⟩ :: l

/-- `parseFile` of `main.js` on a transcript's text, with the two global
regexes' `lastIndex` state threaded through.  The hostname regex is not
global and runs first; if it fails the `TypeError` is thrown before either
collection loop runs, so the state is unchanged. -/
def parseFileS (content : String) (st : Nat × Nat) :
    Option (List DeviceRecord) × (Nat × Nat) :=
  match fetchHostname content with
  | none => (none, st)
  | some h =>
      (pairLoop h (fetchSerialNumbersS content st.1).1
        (fetchModelAndSoftwareS content st.2).1,
       ((fetchSerialNumbersS content st.1).2,
        (fetchModelAndSoftwareS content st.2).2))

/-- `parseFile` of `main.js` (`extract` of the specification). -/
def parseFile (content : String) : Option (List DeviceRecord) :=
  (parseFileS content (0, 0)).1

/-- `device.join()` of `parseFile`: the five fields comma-joined. -/
def rowString (d : DeviceRecord) : String :=
  d.hostname ++ "," ++ d.serialNumber ++ "," ++ d.model ++ "," ++
    d.softwareVersion ++ "," ++ d.softwareImage

/-- The header line initialising `output` in `buildData`. -/
def headerRow : String :=
  "Hostname,Serial Number,Model,Software Version,Software Image\n"

/-- The directory fold of `buildData`: for each file append every row plus a
newline to the accumulated output; an uncaught extraction error aborts the
whole build. -/
def buildGo : List String → String → (Nat × Nat) → Option String × (Nat × Nat)
  | [], acc, st => (some acc, st)
  | f :: fs, acc, st =>
      match parseFileS f st with
      | (none, st') => (none, st')
      | (some ds, st') =>
          buildGo fs (ds.foldl (fun a d => a ++ rowString d ++ "\n") acc) st'

/-- `buildData` of `main.js` with explicit regex state; a directory is
modelled as the list of its files' contents in directory-listing order. -/
def buildDataS (files : List String) (st : Nat × Nat) : Option String × (Nat × Nat) :=
  buildGo files headerRow st

/-- `buildData` of `main.js` (program start has both `lastIndex`es 0). -/
def buildData (files : List String) : Option String :=
  (buildDataS files (0, 0)).1

/-- The default output filename built in `index.js`:
`"Inventory-" + d.getFullYear() + "-" + (d.getMonth() + 1) + "-" +
d.getDate() + "-" + d.getHours() + d.getMinutes() + d.getSeconds()`.
Parameters are the raw getter values (`month` is 0-based as `getMonth`). -/
def defaultFilename (year month date hours minutes seconds : Nat) : String :=
  "Inventory-" ++ toString year ++ "-" ++ toString (month + 1) ++ "-" ++
    toString date ++ "-" ++ toString hours ++ toString minutes ++ toString seconds

/-- Modelled from the claim's words: the six date components separated by
hyphens, `Inventory-<year>-<month>-<day>-<hour>-<minute>-<second>`. -/
def claimedDefaultFilename (year month date hours minutes seconds : Nat) : String :=
  "Inventory-" ++ toString year ++ "-" ++ toString (month + 1) ++ "-" ++
    toString date ++ "-" ++ toString hours ++ "-" ++ toString minutes ++ "-" ++
    toString seconds

/-- The amended format: hyphens separate `Inventory`, year, month and day
from an hour-minute-second block that is concatenated without separators. -/
def amendedDefaultFilename (year month date hours minutes seconds : Nat) : String :=
  String.intercalate "-"
    ["Inventory", toString year, toString (month + 1), toString date,
     toString hours ++ toString minutes ++ toString seconds]

/-- Transcript of the worked example of the specification (one switch). -/
def exC3 : String :=
  "switch1#show version\nSystem Serial Number : FOC1234X5YZ\nWS-C3850-24T 16.03.04 universalk9-npe-abc\n"

/-- A transcript with no hostname-pattern match (no `#` prompt echo). -/
def exBad : String :=
  "no prompt here\nSystem Serial Number : ZZZ999AAA\n"

/-- A transcript with two serial-number matches but only one model/software
triple. -/
def exC2 : String :=
  "host2#sh ver\nSystem Serial Number : AAA111BBB\nSystem Serial Number : CCC222DDD\nMOD-EL-1 16.03.04 image_one-two\n"

/-- A transcript with one serial-number match and two model/software
triples. -/
def exC4 : String :=
  "sw3#show ver\nSystem Serial Number : XYZ789\nAAA-1 16.03.04 img_a-b\nBBB-2 15.02.01 img_c-d\n"

/-- A transcript with two prompt lines matching the hostname pattern. -/
def exC8 : String :=
  "alpha#sh ver\nbeta#sh ver\nSystem Serial Number : QQQ111\nMM-1 16.03.04 ii_a-b\n"

/-! ### Inversion lemmas for the matcher combinators -/

theorem string_mk_ne_empty {l : List Char} (h : l ≠ []) : String.mk l ≠ "" := by
  intro he
  exact h (by simpa using congrArg String.data he)

theorem eatLit_some {c : Char} {cs r : List Char} (h : eatLit c cs = some r) :
    cs = c :: r := by
  cases cs with
  | nil => simp [eatLit] at h
  | cons x xs =>
      simp only [eatLit, beq_iff_eq] at h
      split at h
      · rename_i hx
        cases h
        subst hx
        rfl
      · cases h

theorem eatClass_some {cls : Char → Bool} {cs r : List Char}
    (h : eatClass cls cs = some r) : ∃ x, cs = x :: r ∧ cls x = true := by
  cases cs with
  | nil => simp [eatClass] at h
  | cons x xs =>
      simp only [eatClass] at h
      split at h
      · rename_i hx
        cases h
        exact ⟨x, rfl, hx⟩
      · cases h

theorem eatClassC_some {cls : Char → Bool} {cs : List Char} {p : Char × List Char}
    (h : eatClassC cls cs = some p) : cs = p.1 :: p.2 ∧ cls p.1 = true := by
  cases cs with
  | nil => simp [eatClassC] at h
  | cons y ys =>
      simp only [eatClassC] at h
      split at h
      · rename_i hy
        cases h
        exact ⟨rfl, hy⟩
      · cases h

theorem eatLits_some {pat : List Char} : ∀ {cs r : List Char},
    eatLits pat cs = some r → cs = pat ++ r := by
  induction pat with
  | nil => intro cs r h; cases h; rfl
  | cons c cr ih =>
      intro cs r h
      simp only [eatLits, Option.bind_eq_some] at h
      obtain ⟨r1, h1, h2⟩ := h
      rw [eatLit_some h1, ih h2]
      rfl

theorem backtrackPlusAux_some {k : List Char → List Char → Option α}
    {run rest : List Char} {a : α} :
    ∀ {j : Nat}, backtrackPlusAux k run rest j = some a →
      ∃ i, 1 ≤ i ∧ i ≤ j ∧ k (run.take i) (run.drop i ++ rest) = some a := by
  intro j
  induction j with
  | zero => intro h; simp [backtrackPlusAux] at h
  | succ j ih =>
      intro h
      rw [backtrackPlusAux] at h
      cases hk : k (run.take (j + 1)) (run.drop (j + 1) ++ rest) with
      | some b =>
          rw [hk] at h
          exact ⟨j + 1, by omega, Nat.le_refl _, hk.trans h⟩
      | none =>
          rw [hk] at h
          obtain ⟨i, h1, h2, h3⟩ := ih h
          exact ⟨i, h1, by omega, h3⟩

theorem backtrackPlus_some {cls : Char → Bool} {cs : List Char}
    {k : List Char → List Char → Option α} {a : α}
    (h : backtrackPlus cls cs k = some a) :
    ∃ con rem, cs = con ++ rem ∧ con ≠ [] ∧ (∀ x ∈ con, cls x = true) ∧
      k con rem = some a := by
  obtain ⟨i, h1, h2, h3⟩ := backtrackPlusAux_some h
  refine ⟨(cs.takeWhile cls).take i, (cs.takeWhile cls).drop i ++ cs.dropWhile cls,
    ?_, ?_, ?_, h3⟩
  · rw [← List.append_assoc, List.take_append_drop, List.takeWhile_append_dropWhile]
  · have hlen : ((cs.takeWhile cls).take i).length = i := by
      rw [List.length_take]; omega
    intro he
    rw [he] at hlen
    simp at hlen
    omega
  · intro x hx
    exact List.mem_takeWhile_imp (List.take_subset i _ hx)

/-- A serial-number match has a nonempty capture and consumes at least one
character. -/
theorem matchSerialAt_some {cs : List Char} {cap : String} {rem : List Char}
    (h : matchSerialAt cs = some (cap, rem)) :
    cap ≠ "" ∧ rem.length < cs.length := by
  unfold matchSerialAt at h
  simp only [Option.bind_eq_some] at h
  obtain ⟨r1, e1, h⟩ := h
  obtain ⟨x1, e1, -⟩ := eatClass_some e1
  obtain ⟨r2, e2, h⟩ := h
  have e2 := eatLits_some e2
  obtain ⟨c1, r3, e3, -, -, h⟩ := backtrackPlus_some h
  simp only [Option.bind_eq_some] at h
  obtain ⟨r4, e4, h⟩ := h
  obtain ⟨x2, e4, -⟩ := eatClass_some e4
  obtain ⟨r5, e5, h⟩ := h
  have e5 := eatLits_some e5
  obtain ⟨c2, r6, e6, -, -, h⟩ := backtrackPlus_some h
  simp only [Option.bind_eq_some] at h
  obtain ⟨r7, e7, h⟩ := h
  obtain ⟨x3, e7, -⟩ := eatClass_some e7
  obtain ⟨r8, e8, h⟩ := h
  have e8 := eatLits_some e8
  obtain ⟨c3, r9, e9, -, -, h⟩ := backtrackPlus_some h
  simp only [Option.bind_eq_some] at h
  obtain ⟨r10, e10, h⟩ := h
  have e10 := eatLit_some e10
  obtain ⟨r11, e11, h⟩ := h
  obtain ⟨x4, e11, -⟩ := eatClass_some e11
  obtain ⟨con, r12, e12, hne, -, h⟩ := backtrackPlus_some h
  simp only [Option.some.injEq, Prod.mk.injEq] at h
  obtain ⟨rfl, rfl⟩ := h
  refine ⟨string_mk_ne_empty hne, ?_⟩
  have hc : 0 < con.length := List.length_pos.mpr hne
  have l1 := congrArg List.length e1
  have l2 := congrArg List.length e2
  have l3 := congrArg List.length e3
  have l4 := congrArg List.length e4
  have l5 := congrArg List.length e5
  have l6 := congrArg List.length e6
  have l7 := congrArg List.length e7
  have l8 := congrArg List.length e8
  have l9 := congrArg List.length e9
  have l10 := congrArg List.length e10
  have l11 := congrArg List.length e11
  have l12 := congrArg List.length e12
  simp only [List.length_append, List.length_cons, List.length_nil]
    at l1 l2 l3 l4 l5 l6 l7 l8 l9 l10 l11 l12
  omega

/-- A model/software match has three nonempty captures and consumes at
least one character. -/
theorem matchModelAt_some {cs : List Char} {cap : String × String × String}
    {rem : List Char} (h : matchModelAt cs = some (cap, rem)) :
    (cap.1 ≠ "" ∧ cap.2.1 ≠ "" ∧ cap.2.2 ≠ "") ∧ rem.length < cs.length := by
  unfold matchModelAt at h
  obtain ⟨g1, r1, e1, hg1, -, h⟩ := backtrackPlus_some h
  obtain ⟨c1, r2, e2, -, -, h⟩ := backtrackPlus_some h
  simp only [Option.bind_eq_some] at h
  obtain ⟨d1, e3, h⟩ := h
  obtain ⟨e3, -⟩ := eatClassC_some e3
  obtain ⟨d2, e4, h⟩ := h
  obtain ⟨e4, -⟩ := eatClassC_some e4
  obtain ⟨r5, e5, h⟩ := h
  have e5 := eatLit_some e5
  obtain ⟨vt, r6, e6, -, -, h⟩ := backtrackPlus_some h
  obtain ⟨c2, r7, e7, -, -, h⟩ := backtrackPlus_some h
  obtain ⟨i1, r8, e8, hi1, -, h⟩ := backtrackPlus_some h
  simp only [Option.bind_eq_some] at h
  obtain ⟨sp, e9, h⟩ := h
  obtain ⟨e9, -⟩ := eatClassC_some e9
  obtain ⟨i2, r9, e10, -, -, h⟩ := backtrackPlus_some h
  simp only [Option.bind_eq_some] at h
  obtain ⟨r10, e11, h⟩ := h
  have e11 := eatLit_some e11
  obtain ⟨i3, r11, e12, -, -, h⟩ := backtrackPlus_some h
  simp only [Option.some.injEq, Prod.mk.injEq] at h
  obtain ⟨rfl, rfl⟩ := h
  refine ⟨⟨string_mk_ne_empty hg1, string_mk_ne_empty (by simp),
    string_mk_ne_empty (by simp)⟩, ?_⟩
  have l1 := congrArg List.length e1
  have l2 := congrArg List.length e2
  have l3 := congrArg List.length e3
  have l4 := congrArg List.length e4
  have l5 := congrArg List.length e5
  have l6 := congrArg List.length e6
  have l7 := congrArg List.length e7
  have l8 := congrArg List.length e8
  have l9 := congrArg List.length e9
  have l10 := congrArg List.length e10
  have l11 := congrArg List.length e11
  have l12 := congrArg List.length e12
  simp only [List.length_append, List.length_cons, List.length_nil]
    at l1 l2 l3 l4 l5 l6 l7 l8 l9 l10 l11 l12
  omega

/-- A hostname match captures a nonempty token. -/
theorem matchHostnameAt_some {cs : List Char} {h : String}
    (hm : matchHostnameAt cs = some h) : h ≠ "" := by
  unfold matchHostnameAt at hm
  obtain ⟨cap, r1, e1, hcap, -, hm⟩ := backtrackPlus_some hm
  simp only [Option.bind_eq_some] at hm
  obtain ⟨r2, -, hm⟩ := hm
  obtain ⟨r3, -, hm⟩ := hm
  obtain ⟨c1, r4, -, -, -, hm⟩ := backtrackPlus_some hm
  simp only [Option.bind_eq_some] at hm
  obtain ⟨r5, -, hm⟩ := hm
  cases hm
  exact string_mk_ne_empty hcap

theorem hostnameExec_cons (c : Char) (cs : List Char) :
    hostnameExec (c :: cs) = match matchHostnameAt (c :: cs) with
      | some h => some h
      | none => hostnameExec cs := rfl

theorem hostnameExec_some {cs : List Char} : ∀ {h : String},
    hostnameExec cs = some h → h ≠ "" := by
  induction cs with
  | nil => intro h hm; exact Option.noConfusion hm
  | cons c cs ih =>
      intro h hm
      rw [hostnameExec_cons] at hm
      cases hk : matchHostnameAt (c :: cs) with
      | some b =>
          rw [hk] at hm
          cases hm
          exact matchHostnameAt_some hk
      | none =>
          rw [hk] at hm
          exact ih hm

theorem fetchHostname_ne_empty {c : String} {h : String}
    (hm : fetchHostname c = some h) : h ≠ "" :=
  hostnameExec_some hm

/-! ### Properties of the scan, the `exec` state machine and the loops -/

theorem scanFrom_cons (m : List Char → Option (α × List Char)) (c : Char) (cs : List Char) :
    scanFrom m (c :: cs) = match m (c :: cs) with
      | some r => some r
      | none => scanFrom m cs := rfl

theorem scanFrom_some {m : List Char → Option (α × List Char)}
    {P : α × List Char → Prop}
    (hm : ∀ cs r, m cs = some r → P r ∧ r.2.length < cs.length) :
    ∀ {cs : List Char} {r}, scanFrom m cs = some r → P r ∧ r.2.length < cs.length := by
  intro cs
  induction cs with
  | nil => intro r h; exact hm [] r h
  | cons c cs ih =>
      intro r h
      rw [scanFrom_cons] at h
      cases hk : m (c :: cs) with
      | some r0 =>
          rw [hk] at h
          cases h
          exact hm _ _ hk
      | none =>
          rw [hk] at h
          obtain ⟨p, q⟩ := ih h
          refine ⟨p, ?_⟩
          simp only [List.length_cons]
          omega

theorem serialExec_none {t : List Char} {li li' : Nat}
    (h : serialExec t li = (none, li')) : li' = 0 := by
  unfold serialExec at h
  cases hk : scanFrom matchSerialAt (t.drop li) with
  | some r => rw [hk] at h; obtain ⟨cap, rem⟩ := r; simp at h
  | none => rw [hk] at h; simp at h; omega

theorem serialExec_some {t : List Char} {li li' : Nat} {a : String}
    (h : serialExec t li = (some a, li')) : a ≠ "" ∧ li < li' ∧ li' ≤ t.length := by
  unfold serialExec at h
  cases hk : scanFrom matchSerialAt (t.drop li) with
  | none => rw [hk] at h; simp at h
  | some r =>
      rw [hk] at h
      obtain ⟨cap, rem⟩ := r
      simp only [Option.some.injEq, Prod.mk.injEq] at h
      obtain ⟨rfl, rfl⟩ := h
      have hs := scanFrom_some (P := fun r => r.1 ≠ "")
        (fun cs r hr => matchSerialAt_some hr) hk
      have hd : (t.drop li).length = t.length - li := List.length_drop li t
      have h2 : rem.length < (t.drop li).length := hs.2
      rw [hd] at h2
      exact ⟨hs.1, by omega, by omega⟩

theorem serialExec_ge {t : List Char} {li : Nat} (h : t.length ≤ li) :
    serialExec t li = (none, 0) := by
  unfold serialExec
  rw [List.drop_of_length_le h]
  rfl

theorem modelExec_none {t : List Char} {li li' : Nat}
    (h : modelExec t li = (none, li')) : li' = 0 := by
  unfold modelExec at h
  cases hk : scanFrom matchModelAt (t.drop li) with
  | some r => rw [hk] at h; obtain ⟨cap, rem⟩ := r; simp at h
  | none => rw [hk] at h; simp at h; omega

theorem modelExec_some {t : List Char} {li li' : Nat} {a : String × String × String}
    (h : modelExec t li = (some a, li')) :
    (a.1 ≠ "" ∧ a.2.1 ≠ "" ∧ a.2.2 ≠ "") ∧ li < li' ∧ li' ≤ t.length := by
  unfold modelExec at h
  cases hk : scanFrom matchModelAt (t.drop li) with
  | none => rw [hk] at h; simp at h
  | some r =>
      rw [hk] at h
      obtain ⟨cap, rem⟩ := r
      simp only [Option.some.injEq, Prod.mk.injEq] at h
      obtain ⟨rfl, rfl⟩ := h
      have hs := scanFrom_some (P := fun r => r.1.1 ≠ "" ∧ r.1.2.1 ≠ "" ∧ r.1.2.2 ≠ "")
        (fun cs r hr => matchModelAt_some hr) hk
      have hd : (t.drop li).length = t.length - li := List.length_drop li t
      have h2 : rem.length < (t.drop li).length := hs.2
      rw [hd] at h2
      exact ⟨hs.1, by omega, by omega⟩

theorem modelExec_ge {t : List Char} {li : Nat} (h : t.length ≤ li) :
    modelExec t li = (none, 0) := by
  unfold modelExec
  rw [List.drop_of_length_le h]
  rfl

theorem execLoop_zero (exec : Nat → Option α × Nat) (li : Nat) :
    execLoop exec 0 li = ([], li) := rfl

theorem execLoop_succ (exec : Nat → Option α × Nat) (fuel li : Nat) :
    execLoop exec (fuel + 1) li = match exec li with
      | (some a, li') => (a :: (execLoop exec fuel li').1, (execLoop exec fuel li').2)
      | (none, li') => ([], li') := rfl

/-- A fully fueled collection loop ends in the `exec`-returns-`none` branch,
whose `lastIndex` is the reset value 0. -/
theorem execLoop_post (exec : Nat → Option α × Nat) (L : Nat)
    (h0 : ∀ li li', exec li = (none, li') → li' = 0)
    (hS : ∀ li a li', exec li = (some a, li') → li < li' ∧ li' ≤ L)
    (hB : ∀ li, L ≤ li → exec li = (none, 0)) :
    ∀ fuel li, L + 1 ≤ li + fuel → 1 ≤ fuel → (execLoop exec fuel li).2 = 0 := by
  intro fuel
  induction fuel with
  | zero => intro li h1 h2; omega
  | succ fuel ih =>
      intro li h1 h2
      rw [execLoop_succ]
      cases hk : exec li with
      | mk o li' =>
          cases o with
          | none => exact h0 li li' hk
          | some a =>
              have hsp := hS li a li' hk
              cases fuel with
              | zero =>
                  have hb := hB li (by omega)
                  rw [hb] at hk
                  simp at hk
              | succ f => exact ih li' (by omega) (by omega)

theorem execLoop_mem {exec : Nat → Option α × Nat} :
    ∀ {fuel li : Nat} {a : α}, a ∈ (execLoop exec fuel li).1 →
      ∃ li li', exec li = (some a, li') := by
  intro fuel
  induction fuel with
  | zero => intro li a h; rw [execLoop_zero] at h; simp at h
  | succ fuel ih =>
      intro li a h
      rw [execLoop_succ] at h
      cases hk : exec li with
      | mk o li' =>
          rw [hk] at h
          cases o with
          | none => simp at h
          | some b =>
              simp only [List.mem_cons] at h
              cases h with
              | inl he => subst he; exact ⟨li, li', hk⟩
              | inr hm => exact ih hm

theorem fetchSerialNumbersS_post (c : String) (li : Nat) :
    (fetchSerialNumbersS c li).2 = 0 :=
  execLoop_post (serialExec c.data) c.data.length
    (fun _ _ h => serialExec_none h)
    (fun _ _ _ h => ⟨(serialExec_some h).2.1, (serialExec_some h).2.2⟩)
    (fun _ h => serialExec_ge h)
    (c.data.length + 1) li (by omega) (by omega)

theorem fetchModelAndSoftwareS_post (c : String) (li : Nat) :
    (fetchModelAndSoftwareS c li).2 = 0 :=
  execLoop_post (modelExec c.data) c.data.length
    (fun _ _ h => modelExec_none h)
    (fun _ _ _ h => ⟨(modelExec_some h).2.1, (modelExec_some h).2.2⟩)
    (fun _ h => modelExec_ge h)
    (c.data.length + 1) li (by omega) (by omega)

theorem fetchSerialNumbers_mem {c : String} {s : String}
    (h : s ∈ fetchSerialNumbers c) : s ≠ "" := by
  obtain ⟨li, li', hk⟩ := execLoop_mem h
  exact (serialExec_some hk).1

theorem fetchModelAndSoftware_mem {c : String} {t : String × String × String}
    (h : t ∈ fetchModelAndSoftware c) : t.1 ≠ "" ∧ t.2.1 ≠ "" ∧ t.2.2 ≠ "" := by
  obtain ⟨li, li', hk⟩ := execLoop_mem h
  exact (modelExec_some hk).1

/-! ### Properties of the pairing loop and the extractor -/

theorem pairLoop_eq_some {h : String} :
    ∀ (S : List String) (M : List (String × String × String)), S.length ≤ M.length →
      pairLoop h S M =
        some (List.zipWith (fun s t => DeviceRecord.mk h s t.1 t.2.1 t.2.2) S M) := by
  intro S
  induction S with
  | nil => intro M hle; rfl
  | cons s ss ih =>
      intro M hle
      cases M with
      | nil => simp at hle
      | cons t ts =>
          have hle' : ss.length ≤ ts.length := by
            simp only [List.length_cons] at hle; omega
          simp [pairLoop, ih ts hle']

theorem pairLoop_eq_none {h : String} :
    ∀ (S : List String) (M : List (String × String × String)), M.length < S.length →
      pairLoop h S M = none := by
  intro S
  induction S with
  | nil => intro M hlt; simp at hlt
  | cons s ss ih =>
      intro M hlt
      cases M with
      | nil => rfl
      | cons t ts =>
          have hlt' : ts.length < ss.length := by
            simp only [List.length_cons] at hlt; omega
          simp [pairLoop, ih ts hlt']

theorem pairLoop_some_inv {h : String} :
    ∀ {S : List String} {M : List (String × String × String)} {l : List DeviceRecord},
      pairLoop h S M = some l → l.length = S.length ∧ S.length ≤ M.length := by
  intro S
  induction S with
  | nil =>
      intro M l hp
      cases hp
      simp
  | cons s ss ih =>
      intro M l hp
      cases M with
      | nil => exact Option.noConfusion hp
      | cons t ts =>
          simp only [pairLoop, Option.map_eq_some'] at hp
          obtain ⟨l', hp', rfl⟩ := hp
          obtain ⟨h1, h2⟩ := ih hp'
          constructor
          · simp [h1]
          · simp only [List.length_cons]; omega

theorem pairLoop_mem {h : String} :
    ∀ {S : List String} {M : List (String × String × String)} {l : List DeviceRecord},
      pairLoop h S M = some l → ∀ d ∈ l,
        d.hostname = h ∧ d.serialNumber ∈ S ∧
          (d.model, d.softwareVersion, d.softwareImage) ∈ M := by
  intro S
  induction S with
  | nil =>
      intro M l hp d hd
      cases hp
      simp at hd
  | cons s ss ih =>
      intro M l hp d hd
      cases M with
      | nil => exact Option.noConfusion hp
      | cons t ts =>
          simp only [pairLoop, Option.map_eq_some'] at hp
          obtain ⟨l', hp', rfl⟩ := hp
          rcases List.mem_cons.mp hd with rfl | hd'
          · exact ⟨rfl, List.mem_cons_self s ss, List.mem_cons_self t ts⟩
          · obtain ⟨ha, hb, hc⟩ := ih hp' d hd'
            exact ⟨ha, List.mem_cons_of_mem s hb, List.mem_cons_of_mem t hc⟩

theorem zipWith_getElem_some {f : String → String × String × String → DeviceRecord} :
    ∀ (S : List String) (M : List (String × String × String)) (i : Nat)
      (s : String) (t : String × String × String),
      S[i]? = some s → M[i]? = some t → (List.zipWith f S M)[i]? = some (f s t) := by
  intro S
  induction S with
  | nil => intro M i s t hs ht; simp at hs
  | cons a as ih =>
      intro M i s t hs ht
      cases M with
      | nil => simp at ht
      | cons b bs =>
          cases i with
          | zero =>
              simp only [List.getElem?_cons_zero, Option.some.injEq] at hs ht
              subst hs
              subst ht
              simp
          | succ i =>
              simp only [List.getElem?_cons_succ] at hs ht
              simp only [List.zipWith_cons_cons, List.getElem?_cons_succ]
              exact ih bs i s t hs ht

theorem parseFile_eq (c : String) :
    parseFile c = match fetchHostname c with
      | none => none
      | some h => pairLoop h (fetchSerialNumbers c) (fetchModelAndSoftware c) := by
  unfold parseFile parseFileS
  cases fetchHostname c <;> rfl

theorem parseFileS_hostname_none {c : String} (hh : fetchHostname c = none)
    (st : Nat × Nat) : parseFileS c st = (none, st) := by
  unfold parseFileS
  rw [hh]

theorem parseFileS_post (c : String) : (parseFileS c (0, 0)).2 = (0, 0) := by
  unfold parseFileS
  cases hh : fetchHostname c with
  | none => rfl
  | some h =>
      show ((fetchSerialNumbersS c 0).2, (fetchModelAndSoftwareS c 0).2) = (0, 0)
      rw [fetchSerialNumbersS_post, fetchModelAndSoftwareS_post]

/-! ### Properties of the directory fold -/

theorem buildGo_cons (f : String) (fs : List String) (acc : String) (st : Nat × Nat) :
    buildGo (f :: fs) acc st = match parseFileS f st with
      | (none, st') => (none, st')
      | (some ds, st') =>
          buildGo fs (ds.foldl (fun a d => a ++ rowString d ++ "
") acc) st' := rfl

theorem buildGo_post : ∀ (files : List String) (acc : String),
    (buildGo files acc (0, 0)).2 = (0, 0) := by
  intro files
  induction files with
  | nil => intro acc; rfl
  | cons f fs ih =>
      intro acc
      rw [buildGo_cons]
      cases hp : parseFileS f (0, 0) with
      | mk o st' =>
          have hst : st' = (0, 0) := by
            have hpost := parseFileS_post f
            rw [hp] at hpost
            exact hpost
          subst hst
          cases o with
          | none => rfl
          | some ds => exact ih _

theorem buildGo_abort {c : String} (hh : fetchHostname c = none) :
    ∀ (pre post : List String) (acc : String) (st : Nat × Nat),
      (buildGo (pre ++ c :: post) acc st).1 = none := by
  intro pre
  induction pre with
  | nil =>
      intro post acc st
      rw [List.nil_append, buildGo_cons, parseFileS_hostname_none hh]
  | cons p pre ih =>
      intro post acc st
      rw [List.cons_append, buildGo_cons]
      cases hp : parseFileS p st with
      | mk o st' =>
          cases o with
          | none => rfl
          | some ds => exact ih post _ st'

/-! ### Support for the abbreviated-prompt analysis of the hostname regex -/

theorem mem_of_mem_takeWhile {p : Char → Bool} :
    ∀ {l : List Char} {c : Char}, c ∈ l.takeWhile p → c ∈ l := by
  intro l
  induction l with
  | nil => intro c h; simp at h
  | cons a as ih =>
      intro c h
      rw [List.takeWhile_cons] at h
      split at h
      · rcases List.mem_cons.mp h with rfl | h'
        · exact List.mem_cons_self c as
        · exact List.mem_cons_of_mem a (ih h')
      · simp at h

theorem takeWhile_append_pos {p : Char → Bool} :
    ∀ {t : List Char} (l : List Char), (∀ c ∈ t, p c = true) →
      (t ++ l).takeWhile p = t ++ l.takeWhile p := by
  intro t
  induction t with
  | nil => intro l h; rfl
  | cons a as ih =>
      intro l h
      have ha : p a = true := h a (List.mem_cons_self a as)
      simp only [List.cons_append, List.takeWhile_cons, ha, if_true]
      rw [ih l (fun c hc => h c (List.mem_cons_of_mem a hc))]

theorem dropWhile_append_pos {p : Char → Bool} :
    ∀ {t : List Char} (l : List Char), (∀ c ∈ t, p c = true) →
      (t ++ l).dropWhile p = l.dropWhile p := by
  intro t
  induction t with
  | nil => intro l h; rfl
  | cons a as ih =>
      intro l h
      have ha : p a = true := h a (List.mem_cons_self a as)
      simp only [List.cons_append, List.dropWhile_cons, ha, if_true]
      exact ih l (fun c hc => h c (List.mem_cons_of_mem a hc))

theorem takeWhile_append_stop {p : Char → Bool} :
    ∀ {t : List Char} (l : List Char), (∃ c ∈ t, p c = false) →
      (t ++ l).takeWhile p = t.takeWhile p := by
  intro t
  induction t with
  | nil => intro l h; simp at h
  | cons a as ih =>
      intro l h
      cases ha : p a with
      | false =>
          simp only [List.cons_append, List.takeWhile_cons, ha]
          rfl
      | true =>
          obtain ⟨c, hc, hpc⟩ := h
          rcases List.mem_cons.mp hc with rfl | hc'
          · rw [ha] at hpc; cases hpc
          · simp only [List.cons_append, List.takeWhile_cons, ha, if_true]
            rw [ih l ⟨c, hc', hpc⟩]

theorem dropWhile_head {p : Char → Bool} : ∀ (l : List Char),
    l.dropWhile p = [] ∨ ∃ c r, l.dropWhile p = c :: r ∧ p c = false := by
  intro l
  induction l with
  | nil => left; rfl
  | cons a as ih =>
      cases ha : p a with
      | true =>
          rw [List.dropWhile_cons, if_pos ha]
          exact ih
      | false =>
          right
          exact ⟨a, as, by rw [List.dropWhile_cons, if_neg (by simp [ha])], ha⟩

/-- Longest-first search: if the continuation succeeds on the length-`m`
prefix and fails on every longer prefix up to `j`, the backtracking worker
returns that success. -/
theorem backtrackPlusAux_first {k : List Char → List Char → Option α}
    {run rest : List Char} {m : Nat} {a : α}
    (hsucc : k (run.take m) (run.drop m ++ rest) = some a) (h1 : 1 ≤ m) :
    ∀ j, m ≤ j →
      (∀ i, m < i → i ≤ j → k (run.take i) (run.drop i ++ rest) = none) →
      backtrackPlusAux k run rest j = some a := by
  intro j
  induction j with
  | zero => intro hm _; omega
  | succ j ih =>
      intro hm hfail
      rw [backtrackPlusAux]
      by_cases hmj : m = j + 1
      · subst hmj
        rw [hsucc]
      · have hf := hfail (j + 1) (by omega) (Nat.le_refl _)
        rw [hf]
        exact ih (by omega) (fun i hi1 hi2 => hfail i hi1 (by omega))

theorem eatLit_hash_none {l r0 : List Char}
    (hl : ∀ c ∈ l, c ≠ '#')
    (hr : r0 = [] ∨ ∃ c r, r0 = c :: r ∧ c ≠ '#') (n : Nat) :
    eatLit '#' (l.drop n ++ r0) = none := by
  cases hd : l.drop n with
  | nil =>
      rw [List.nil_append]
      rcases hr with rfl | ⟨c, r, rfl, hc⟩
      · rfl
      · have hb : (c == '#') = false := by simp [hc]
        simp [eatLit, hb]
  | cons c cr =>
      have hc : c ≠ '#' :=
        hl c (List.drop_subset n l (by rw [hd]; exact List.mem_cons_self c cr))
      rw [List.cons_append]
      have hb : (c == '#') = false := by simp [hc]
      simp [eatLit, hb]

/-- The hostname regex on a transcript whose leading prompt line has the
form `<t>#sh<mix>ver...`, with `t` a nonempty whitespace-free token and
`mix` a nonempty run of characters from `[ow\s]`, captures exactly `t`:
greedy backtracking of `(\S+)` settles on the prefix ending just before the
`#`.  The last hypothesis states that the prompt form is a whole prompt
token: either `mix` contains whitespace (so the `\S+` run already ends
inside `mix`), or whatever follows `ver` contributes no further `#` to the
same whitespace-free run. -/
theorem matchHostnameAt_full {t mix rest : List Char}
    (ht : t ≠ []) (htns : ∀ c ∈ t, isSpaceChar c = false)
    (hmix : mix ≠ []) (hmcls : ∀ c ∈ mix, owsClass c = true)
    (hsafe : (∃ c ∈ mix, isSpaceChar c = true) ∨
      (∀ c ∈ rest.takeWhile (fun c => !isSpaceChar c), c ≠ '#')) :
    matchHostnameAt (t ++ '#' :: 's' :: 'h' :: (mix ++ 'v' :: 'e' :: 'r' :: rest)) =
      some (String.mk t) := by
  have hpt : ∀ c ∈ t, (fun c => !isSpaceChar c) c = true := by
    intro c hc; simp [htns c hc]
  have hrun : (t ++ '#' :: 's' :: 'h' :: (mix ++ 'v' :: 'e' :: 'r' :: rest)).takeWhile
      (fun c => !isSpaceChar c) =
      t ++ '#' :: 's' :: 'h' ::
        ((mix ++ 'v' :: 'e' :: 'r' :: rest).takeWhile (fun c => !isSpaceChar c)) := by
    rw [takeWhile_append_pos _ hpt]
    rfl
  have hrest0 : (t ++ '#' :: 's' :: 'h' :: (mix ++ 'v' :: 'e' :: 'r' :: rest)).dropWhile
      (fun c => !isSpaceChar c) =
      (mix ++ 'v' :: 'e' :: 'r' :: rest).dropWhile (fun c => !isSpaceChar c) := by
    rw [dropWhile_append_pos _ hpt]
    rfl
  have hu : ∀ c ∈ (mix ++ 'v' :: 'e' :: 'r' :: rest).takeWhile (fun c => !isSpaceChar c),
      c ≠ '#' := by
    by_cases hsp : ∃ c ∈ mix, isSpaceChar c = true
    · obtain ⟨c0, hc0, hpc0⟩ := hsp
      rw [takeWhile_append_stop _ ⟨c0, hc0, by simp [hpc0]⟩]
      intro c hc
      have hcm := mem_of_mem_takeWhile hc
      have hcp := List.mem_takeWhile_imp hc
      have how := hmcls c hcm
      simp only [Bool.not_eq_true'] at hcp
      simp only [owsClass, hcp, Bool.or_false] at how
      rcases Bool.or_eq_true_iff.mp how with h1 | h1 <;>
        · intro he; subst he; simp at h1
    · have hns : ∀ c ∈ mix, (fun c => !isSpaceChar c) c = true := by
        intro c hc
        rcases hb : isSpaceChar c with _ | _
        · simp [hb]
        · exact absurd ⟨c, hc, hb⟩ hsp
      rw [takeWhile_append_pos _ hns]
      have hver : ('v' :: 'e' :: 'r' :: rest).takeWhile (fun c => !isSpaceChar c) =
          'v' :: 'e' :: 'r' :: rest.takeWhile (fun c => !isSpaceChar c) := rfl
      rw [hver]
      intro c hc
      rcases List.mem_append.mp hc with hcm | hcm
      · have how := hmcls c hcm
        have hcp : isSpaceChar c = false := by
          rcases hb : isSpaceChar c with _ | _
          · rfl
          · exact absurd ⟨c, hcm, hb⟩ hsp
        simp only [owsClass, hcp, Bool.or_false] at how
        rcases Bool.or_eq_true_iff.mp how with h1 | h1 <;>
          · intro he; subst he; simp at h1
      · rcases List.mem_cons.mp hcm with rfl | hcm
        · decide
        · rcases List.mem_cons.mp hcm with rfl | hcm
          · decide
          · rcases List.mem_cons.mp hcm with rfl | hcm
            · decide
            · rcases hsafe with hsp' | hrest
              · exact absurd hsp' hsp
              · exact hrest c hcm
  have hD : (mix ++ 'v' :: 'e' :: 'r' :: rest).dropWhile (fun c => !isSpaceChar c) = [] ∨
      ∃ c r, (mix ++ 'v' :: 'e' :: 'r' :: rest).dropWhile (fun c => !isSpaceChar c) = c :: r ∧
        c ≠ '#' := by
    rcases dropWhile_head (p := fun c => !isSpaceChar c)
        (mix ++ 'v' :: 'e' :: 'r' :: rest) with hend | ⟨c, r, hend, hpc⟩
    · exact Or.inl hend
    · refine Or.inr ⟨c, r, hend, ?_⟩
      intro he
      subst he
      exact absurd hpc (by decide)
  -- the successful attempt at prefix length `t.length`
  have hinner : backtrackPlus owsClass (mix ++ 'v' :: 'e' :: 'r' :: rest)
      (fun x r4 => (eatLits ['v', 'e', 'r'] r4).bind fun x2 => some (String.mk t)) =
      some (String.mk t) := by
    have htw : (mix ++ 'v' :: 'e' :: 'r' :: rest).takeWhile owsClass = mix := by
      rw [takeWhile_append_pos _ hmcls]
      have hstop : ('v' :: 'e' :: 'r' :: rest).takeWhile owsClass = [] := rfl
      rw [hstop, List.append_nil]
    have hdw : (mix ++ 'v' :: 'e' :: 'r' :: rest).dropWhile owsClass =
        'v' :: 'e' :: 'r' :: rest := by
      rw [dropWhile_append_pos _ hmcls]
      rfl
    unfold backtrackPlus
    rw [htw, hdw]
    refine backtrackPlusAux_first ?_ ?_ mix.length (Nat.le_refl _)
      (fun i hi1 hi2 => absurd hi1 (by omega))
    · rw [List.drop_length]
      rfl
    · have := List.length_pos.mpr hmix
      omega
  unfold matchHostnameAt backtrackPlus
  rw [hrun, hrest0]
  refine backtrackPlusAux_first (m := t.length) ?_ ?_ _ ?_ ?_
  · -- success at `t.length`
    rw [List.take_left, List.drop_left]
    have harg : ('#' :: 's' :: 'h' ::
          ((mix ++ 'v' :: 'e' :: 'r' :: rest).takeWhile (fun c => !isSpaceChar c))) ++
          (mix ++ 'v' :: 'e' :: 'r' :: rest).dropWhile (fun c => !isSpaceChar c) =
        '#' :: 's' :: 'h' :: (mix ++ 'v' :: 'e' :: 'r' :: rest) := by
      simp only [List.cons_append]
      rw [List.takeWhile_append_dropWhile]
    rw [harg]
    exact hinner
  · have := List.length_pos.mpr ht
    omega
  · simp only [List.length_append, List.length_cons]
    omega
  · -- every longer prefix leaves a remainder not starting with `#`
    intro i hi1 hi2
    obtain ⟨n, rfl⟩ : ∃ n, i = t.length + (n + 1) := ⟨i - t.length - 1, by omega⟩
    rw [List.drop_append]
    have hw : ('#' :: 's' :: 'h' ::
        ((mix ++ 'v' :: 'e' :: 'r' :: rest).takeWhile (fun c => !isSpaceChar c))).drop (n + 1) =
        ('s' :: 'h' ::
          ((mix ++ 'v' :: 'e' :: 'r' :: rest).takeWhile (fun c => !isSpaceChar c))).drop n := rfl
    rw [hw]
    have hshu : ∀ c ∈ 's' :: 'h' ::
        ((mix ++ 'v' :: 'e' :: 'r' :: rest).takeWhile (fun c => !isSpaceChar c)), c ≠ '#' := by
      intro c hc
      rcases List.mem_cons.mp hc with rfl | hc
      · decide
      · rcases List.mem_cons.mp hc with rfl | hc
        · decide
        · exact hu c hc
    have hnone := eatLit_hash_none hshu hD n
    rw [hnone]
    rfl

/-! ### Claims -/

/-- Claim C1, counterexample: a transcript with zero hostname-pattern
matches is not recovered from.  Extraction yields no record list at all
(the `null`-indexing `TypeError`), and a directory containing such a file
yields no inventory — the build aborts instead of continuing with the
remaining files, although the remaining file extracts cleanly on its own. -/
theorem c1_counterexample :
    fetchHostname exBad = none ∧ parseFile exBad = none ∧
    buildData [exBad, exC3] = none ∧
    buildData [exC3] = some
      "Hostname,Serial Number,Model,Software Version,Software Image\nswitch1,FOC1234X5YZ,WS-C3850-24T,16.03.04,universalk9-npe-abc\n" :=
  ⟨by decide, by decide, by decide, by decide⟩

/-- Claim C1, amended: for every transcript whose text has zero
hostname-pattern matches, extraction fails (the thrown `TypeError` is
modelled as `none`), and every directory build whose listing contains that
transcript aborts with no inventory, regardless of the other files. -/
theorem c1_amended (c : String) (hh : fetchHostname c = none) :
    parseFile c = none ∧
    ∀ pre post : List String, buildData (pre ++ c :: post) = none := by
  constructor
  · unfold parseFile
    rw [parseFileS_hostname_none hh]
  · intro pre post
    exact buildGo_abort hh pre post headerRow (0, 0)

/-- Witness for `c1_amended` at the concrete unrecognizable transcript. -/
theorem c1_amended_witness :
    parseFile exBad = none ∧ buildData [exBad, exC3] = none := by
  have h := c1_amended exBad (by decide)
  exact ⟨h.1, h.2 [] [exC3]⟩

/-- Claim C2, counterexample: a transcript with N = 2 serial matches and
K = 1 model/software triples does not yield K = 1 records; the pairing loop
reads `modelAndSoftware[1][0]`, which throws, so extraction yields no
record list at all. -/
theorem c2_counterexample :
    (fetchSerialNumbers exC2).length = 2 ∧
    (fetchModelAndSoftware exC2).length = 1 ∧
    fetchHostname exC2 = some "host2" ∧
    parseFile exC2 = none :=
  ⟨by decide, by decide, by decide, by decide⟩

/-- Claim C2, amended: for every transcript with a matched hostname and
K < N model/software triples, extraction emits nothing: indexing the
missing triple at the first unpaired index throws a `TypeError` instead of
skipping, so no records are returned (and the surrounding build aborts). -/
theorem c2_amended (c : String) (h : String) (hh : fetchHostname c = some h)
    (hlt : (fetchModelAndSoftware c).length < (fetchSerialNumbers c).length) :
    parseFile c = none := by
  rw [parseFile_eq, hh]
  exact pairLoop_eq_none _ _ hlt

/-- Witness for `c2_amended` at the concrete two-serial transcript. -/
theorem c2_amended_witness : parseFile exC2 = none :=
  c2_amended exC2 "host2" (by decide) (by decide)

/-- Claim C3: a transcript with a matched hostname, exactly one
serial-number match and exactly one model/software triple extracts to
exactly one record whose five fields are the captured substrings verbatim;
in particular the worked example transcript (prompt `switch1#show version`,
serial line `System Serial Number : FOC1234X5YZ`, banner
`WS-C3850-24T 16.03.04 universalk9-npe-abc`) extracts to the single record
(switch1, FOC1234X5YZ, WS-C3850-24T, 16.03.04, universalk9-npe-abc). -/
theorem c3_single_unit :
    (∀ (c : String) (h s : String) (t : String × String × String),
      fetchHostname c = some h → fetchSerialNumbers c = [s] →
      fetchModelAndSoftware c = [t] →
      parseFile c = some [⟨h, s, t.1, t.2.1, t.2.2⟩]) ∧
    parseFile exC3 = some
      [⟨"switch1", "FOC1234X5YZ", "WS-C3850-24T", "16.03.04", "universalk9-npe-abc"⟩] := by
  constructor
  · intro c h s t hh hs ht
    rw [parseFile_eq, hh, hs, ht]
    rfl
  · decide

/-- Witness for `c3_single_unit` at the worked example transcript. -/
theorem c3_witness :
    parseFile exC3 = some
      [⟨"switch1", "FOC1234X5YZ", "WS-C3850-24T", "16.03.04", "universalk9-npe-abc"⟩] :=
  c3_single_unit.1 exC3 "switch1" "FOC1234X5YZ"
    ("WS-C3850-24T", "16.03.04", "universalk9-npe-abc") (by decide) (by decide) (by decide)

/-- Claim C4: for a transcript with a matched hostname and K ≥ N
model/software triples, extraction yields exactly N records — the
positional zip of the serial list with the triple list, which truncates at
the serial count, ignores triples at indices ≥ N, pairs the i-th serial
with the i-th triple, and stamps every record with the one hostname. -/
theorem c4_stacked (c : String) (h : String) (hh : fetchHostname c = some h)
    (hle : (fetchSerialNumbers c).length ≤ (fetchModelAndSoftware c).length) :
    parseFile c = some (List.zipWith (fun s t => DeviceRecord.mk h s t.1 t.2.1 t.2.2)
        (fetchSerialNumbers c) (fetchModelAndSoftware c)) ∧
    (List.zipWith (fun s t => DeviceRecord.mk h s t.1 t.2.1 t.2.2)
        (fetchSerialNumbers c) (fetchModelAndSoftware c)).length =
      (fetchSerialNumbers c).length ∧
    (∀ (i : Nat) (s : String) (t : String × String × String),
      (fetchSerialNumbers c)[i]? = some s → (fetchModelAndSoftware c)[i]? = some t →
      (List.zipWith (fun s t => DeviceRecord.mk h s t.1 t.2.1 t.2.2)
        (fetchSerialNumbers c) (fetchModelAndSoftware c))[i]? =
        some (DeviceRecord.mk h s t.1 t.2.1 t.2.2)) := by
  refine ⟨?_, ?_, ?_⟩
  · rw [parseFile_eq, hh]
    exact pairLoop_eq_some _ _ hle
  · rw [List.length_zipWith]
    omega
  · intro i s t hs ht
    exact zipWith_getElem_some _ _ i s t hs ht

/-- Witness for `c4_stacked`: one serial, two triples, one record; the
second triple is ignored. -/
theorem c4_witness :
    parseFile exC4 = some [DeviceRecord.mk "sw3" "XYZ789" "AAA-1" "16.03.04" "img_a-b"] := by
  have h := (c4_stacked exC4 "sw3" (by decide) (by decide)).1
  rw [h]
  decide

/-- Claim C5: each `while (exec)` loop ends with the failing `exec` call
that resets the global regex's `lastIndex` to 0, so a whole build maps the
module state (0, 0) to (0, 0); a second build over the same directory
therefore starts from the identical state and produces the identical
output. -/
theorem c5_idempotent (files : List String) :
    (buildDataS files (0, 0)).2 = (0, 0) ∧
    (buildDataS files ((buildDataS files (0, 0)).2)).1 = (buildDataS files (0, 0)).1 := by
  have hst : (buildDataS files (0, 0)).2 = (0, 0) := buildGo_post files headerRow
  exact ⟨hst, by rw [hst]⟩

/-- Witness for `c5_idempotent` on a one-file directory. -/
theorem c5_witness :
    (buildDataS [exC3] (0, 0)).2 = (0, 0) ∧
    (buildDataS [exC3] ((buildDataS [exC3] (0, 0)).2)).1 =
      (buildDataS [exC3] (0, 0)).1 :=
  c5_idempotent [exC3]

/-- Claim C6: every record the extractor emits has all five fields
nonempty — every capture group of the three regexes consumes at least one
character — and records are produced only when a serial number was found
(a nonempty record list forces a nonempty serial list). -/
theorem c6_invariants (c : String) (l : List DeviceRecord)
    (hp : parseFile c = some l) :
    (∀ d ∈ l, d.hostname ≠ "" ∧ d.serialNumber ≠ "" ∧ d.model ≠ "" ∧
      d.softwareVersion ≠ "" ∧ d.softwareImage ≠ "") ∧
    (l ≠ [] → fetchSerialNumbers c ≠ []) := by
  rw [parseFile_eq] at hp
  cases hh : fetchHostname c with
  | none => rw [hh] at hp; cases hp
  | some h =>
      rw [hh] at hp
      have hp' : pairLoop h (fetchSerialNumbers c) (fetchModelAndSoftware c) = some l := hp
      constructor
      · intro d hd
        obtain ⟨hhost, hser, htrip⟩ := pairLoop_mem hp' d hd
        have hs := fetchSerialNumbers_mem hser
        have ht := fetchModelAndSoftware_mem htrip
        refine ⟨?_, hs, ht.1, ht.2.1, ht.2.2⟩
        rw [hhost]
        exact fetchHostname_ne_empty hh
      · intro hne hS
        obtain ⟨hlen, -⟩ := pairLoop_some_inv hp'
        rw [hS] at hlen
        simp only [List.length_nil] at hlen
        exact hne (List.length_eq_zero.mp hlen)

/-- Witness for `c6_invariants` at the worked example transcript. -/
theorem c6_witness :
    ("switch1" : String) ≠ "" ∧ ("FOC1234X5YZ" : String) ≠ "" ∧
    ("WS-C3850-24T" : String) ≠ "" ∧ ("16.03.04" : String) ≠ "" ∧
    ("universalk9-npe-abc" : String) ≠ "" := by
  have h := (c6_invariants exC3
      [⟨"switch1", "FOC1234X5YZ", "WS-C3850-24T", "16.03.04", "universalk9-npe-abc"⟩]
      (by decide)).1
      ⟨"switch1", "FOC1234X5YZ", "WS-C3850-24T", "16.03.04", "universalk9-npe-abc"⟩
      (by decide)
  exact h

/-- Claim C7, counterexample: at year 2016, `getMonth()` value 4, day 12,
time 9:30:45, the code's default filename is `Inventory-2016-5-12-93045`,
not the claimed hyphen-separated `Inventory-2016-5-12-9-30-45`: the hour,
minute and second are concatenated without separators. -/
theorem c7_counterexample :
    defaultFilename 2016 4 12 9 30 45 = "Inventory-2016-5-12-93045" ∧
    claimedDefaultFilename 2016 4 12 9 30 45 = "Inventory-2016-5-12-9-30-45" ∧
    defaultFilename 2016 4 12 9 30 45 ≠ claimedDefaultFilename 2016 4 12 9 30 45 :=
  ⟨by decide, by decide, by decide⟩

/-- Claim C7, amended: the default filename is
`Inventory-<year>-<month>-<day>-<hour><minute><second>` — hyphens separate
`Inventory`, the year, the calendar month and the day from a final block in
which hour, minute and second are concatenated with no separator. -/
theorem c7_amended (year month date hours minutes seconds : Nat) :
    defaultFilename year month date hours minutes seconds =
      amendedDefaultFilename year month date hours minutes seconds := by
  unfold defaultFilename amendedDefaultFilename
  simp only [String.intercalate, String.intercalate.go]
  apply String.ext
  simp only [String.data_append]
  simp [List.append_assoc]

/-- Witness for `c7_amended` at the counterexample's date components. -/
theorem c7_amended_witness :
    amendedDefaultFilename 2016 4 12 9 30 45 = "Inventory-2016-5-12-93045" :=
  (c7_amended 2016 4 12 9 30 45).symm.trans (by decide)

/-- Claim C8: every emitted record's hostname is the single capture the
hostname `exec` returned for the transcript, and that capture is the
leftmost match's: it arises at a position before which the pattern matches
nowhere. -/
theorem c8_first_hostname :
    (∀ (c : String) (l : List DeviceRecord), parseFile c = some l →
      ∀ d ∈ l, fetchHostname c = some d.hostname) ∧
    (∀ (cs : List Char) (h : String), hostnameExec cs = some h →
      ∃ k, matchHostnameAt (cs.drop k) = some h ∧
        ∀ j, j < k → matchHostnameAt (cs.drop j) = none) := by
  constructor
  · intro c l hp d hd
    rw [parseFile_eq] at hp
    cases hh : fetchHostname c with
    | none => rw [hh] at hp; cases hp
    | some h =>
        rw [hh] at hp
        have hp' : pairLoop h (fetchSerialNumbers c) (fetchModelAndSoftware c) = some l := hp
        obtain ⟨hhost, -, -⟩ := pairLoop_mem hp' d hd
        rw [hhost]
  · intro cs
    induction cs with
    | nil => intro h hm; exact Option.noConfusion hm
    | cons c cs ih =>
        intro h hm
        rw [hostnameExec_cons] at hm
        cases hk : matchHostnameAt (c :: cs) with
        | some b =>
            rw [hk] at hm
            cases hm
            exact ⟨0, hk, fun j hj => absurd hj (by omega)⟩
        | none =>
            rw [hk] at hm
            obtain ⟨k, h1, h2⟩ := ih h hm
            refine ⟨k + 1, h1, ?_⟩
            intro j hj
            cases j with
            | zero => exact hk
            | succ j => exact h2 j (by omega)

/-- Witness for `c8_first_hostname` at the two-prompt transcript: the
record carries the first prompt's token `alpha`, not `beta`. -/
theorem c8_witness : fetchHostname exC8 = some "alpha" := by
  have h := c8_first_hostname.1 exC8
      [⟨"alpha", "QQQ111", "MM-1", "16.03.04", "ii_a-b"⟩] (by decide)
      ⟨"alpha", "QQQ111", "MM-1", "16.03.04", "ii_a-b"⟩ (by decide)
  exact h

/-- Claim C9: a build over an empty directory yields the header row alone
(an inventory of zero records) and no error. -/
theorem c9_empty_dir :
    buildData [] = some "Hostname,Serial Number,Model,Software Version,Software Image\n" :=
  rfl

/-- Claim C10: the hostname pattern accepts abbreviated prompt command
forms.  For every nonempty whitespace-free token `t` and every nonempty
`mix` of characters from `o`, `w` and whitespace, a transcript starting
with the prompt form `t#sh<mix>ver...` captures exactly `t` as the
hostname — covering `t#sh ver`, `t#sh version`, `t#show  ver` and the
like.  The last hypothesis pins down that the prompt form is the whole
prompt of the line: either `mix` contains whitespace, or the text after
`ver` contributes no `#` to the same whitespace-free run. -/
theorem c10_abbreviated_prompt (t mix rest : List Char)
    (ht : t ≠ []) (htns : ∀ c ∈ t, isSpaceChar c = false)
    (hmix : mix ≠ []) (hmcls : ∀ c ∈ mix, owsClass c = true)
    (hsafe : (∃ c ∈ mix, isSpaceChar c = true) ∨
      (∀ c ∈ rest.takeWhile (fun c => !isSpaceChar c), c ≠ '#')) :
    fetchHostname (String.mk (t ++ '#' :: 's' :: 'h' :: (mix ++ 'v' :: 'e' :: 'r' :: rest))) =
      some (String.mk t) := by
  have hm := matchHostnameAt_full ht htns hmix hmcls hsafe
  obtain ⟨t0, tt, rfl⟩ := List.exists_cons_of_ne_nil ht
  show hostnameExec ((t0 :: tt) ++ '#' :: 's' :: 'h' :: (mix ++ 'v' :: 'e' :: 'r' :: rest)) =
    some (String.mk (t0 :: tt))
  rw [List.cons_append] at hm ⊢
  rw [hostnameExec_cons, hm]

/-- Witness for `c10_abbreviated_prompt`: the transcript `r1#sh ver\nx`
has hostname `r1`. -/
theorem c10_witness :
    fetchHostname (String.mk (['r', '1'] ++ '#' :: 's' :: 'h' ::
        ([' '] ++ 'v' :: 'e' :: 'r' :: ['\n', 'x']))) = some (String.mk ['r', '1']) :=
  c10_abbreviated_prompt ['r', '1'] [' '] ['\n', 'x'] (by decide) (by decide)
    (by decide) (by decide) (by decide)

end Clerk
